import Mathlib

set_option maxRecDepth 100000
set_option maxHeartbeats 1000000

/-!
Verification development for the token-bounded Markdown chunking engine
(src/text_splitter/text_service.rs).

Modelling conventions:
* Text is `List Char`; byte offsets of the Rust code become character
  indices.  Rust slicing `text[s..e]` is modelled by the total function
  `textSlice` (`(text.take e).drop s`).
* The tokenizer (`tiktoken_rs::cl100k_base`, an external capability) is an
  abstract parameter `tok : List Char → Nat` giving the encoded length of a
  raw string.  `count_tokens` wraps its argument in the chat envelope before
  invoking the tokenizer, exactly as the source does.
* The two `while` loops of the source (the shrink loop of `get_chunk` and
  the chunking loop of `split`) are not structurally terminating, so they
  take an explicit fuel argument; `none` means the fuel was exhausted, i.e.
  the source loop has not terminated within that many iterations.
* `Result<T>` is modelled by `Except (List Char) T`; the fuel `Option`
  layer sits outside of it.
* `split` is instrumented to also record, next to each emitted `Doc`, the
  half-open span `(position, chunk_end)` of original offsets the chunk
  consumed.  The plain output of the source is obtained by projecting the
  `Doc` component; everything else mirrors the source loop verbatim.
-/

/-- Abstract tokenizer capability: raw text to encoded token count. -/
abbrev Tok := List Char → Nat

/-- Leading part of the chat envelope of `format_for_tokenization`. -/
def chatPrefix : List Char := "<|im_start|>user\n".toList

/-- Trailing part of the chat envelope of `format_for_tokenization`. -/
def chatSuffix : List Char := "<|im_end|>\n<|im_start|>assistant<|im_end|>".toList

/-- `TextSplitter::format_for_tokenization`. -/
def formatForTokenization (text : List Char) : List Char :=
  chatPrefix ++ text ++ chatSuffix

/-- `TextSplitter::count_tokens`: the tokenizer applied to the wrapped text. -/
def countTokens (tok : Tok) (text : List Char) : Nat :=
  tok (formatForTokenization text)

/-- The `overhead` computed at the top of `get_chunk` (line 106):
`count_tokens(format_for_tokenization("")) - count_tokens("")`. -/
def overheadOf (tok : Tok) : Nat :=
  countTokens tok (formatForTokenization []) - countTokens tok []

/-- Rust slicing `text[s..e]`, made total. -/
def textSlice (text : List Char) (s e : Nat) : List Char :=
  (text.take e).drop s

/-- `TextSplitter::find_new_chunk_end`. -/
def findNewChunkEnd (start e : Nat) : Nat :=
  let newEnd := e - (e - start) / 10
  if newEnd ≤ start then start + 1 else newEnd

/-- The shrink `while` loop of `get_chunk` (lines 114-122), with fuel.
`some e` is the value of `end` on normal exit; `none` means the loop has
not exited within `fuel` iterations. -/
def shrinkLoop (tok : Tok) (text : List Char) (start limit overhead : Nat) :
    Nat → Nat → Option Nat
  | 0, e =>
    if countTokens tok (textSlice text start e) + overhead > limit ∧ start < e then
      none
    else some e
  | fuel + 1, e =>
    if countTokens tok (textSlice text start e) + overhead > limit ∧ start < e then
      shrinkLoop tok text start limit overhead fuel (findNewChunkEnd start e)
    else some e

/-- The model of `str::find('\n')` on a character list. -/
def findCharIdx (c : Char) : List Char → Option Nat
  | [] => none
  | x :: xs => if x = c then some 0 else (findCharIdx c xs).map (· + 1)

/-- The model of `str::rfind('\n')` on a character list. -/
def rfindCharIdx (c : Char) : List Char → Option Nat
  | [] => none
  | x :: xs =>
    match rfindCharIdx c xs with
    | some j => some (j + 1)
    | none => if x = c then some 0 else none

/-- First stage of `adjust_chunk_end`: try extending to the next newline
(`minChunkTokens` of the source, `(limit as f64 * 0.8) as usize`, equals
`limit * 8 / 10` in natural arithmetic for every `usize` below `2^52`, since
the f64 product never crosses an integer boundary). -/
def adjustTryNext (tok : Tok) (text : List Char) (start e limit : Nat) : Option Nat :=
  match (findCharIdx '\n' (text.drop e)).map (fun p => e + p + 1) with
  | some next =>
    let t := countTokens tok (textSlice text start next)
    if t ≤ limit ∧ limit * 8 / 10 ≤ t then some next else none
  | none => none

/-- Second stage of `adjust_chunk_end`: try reducing to the previous
newline, else keep `e`. -/
def adjustTryPrev (tok : Tok) (text : List Char) (start e limit : Nat) : Nat :=
  match (rfindCharIdx '\n' (text.take e)).map (fun p => p + 1) with
  | some prev =>
    if start < prev then
      let t := countTokens tok (textSlice text start prev)
      if t ≤ limit ∧ limit * 8 / 10 ≤ t then prev else e
    else e
  | none => e

/-- `TextSplitter::adjust_chunk_end`. -/
def adjustChunkEnd (tok : Tok) (text : List Char) (start e : Nat)
    (_currentTokens limit : Nat) : Nat :=
  match adjustTryNext tok text start e limit with
  | some next => next
  | none => adjustTryPrev tok text start e limit

/-- `TextSplitter::get_chunk`, with shrink-loop fuel `sfuel`. -/
def getChunk (tok : Tok) (text : List Char) (start limit sfuel : Nat) :
    Option (Except (List Char) (List Char × Nat)) :=
  let overhead := overheadOf tok
  let e0 := min (start + (text.length - start) * limit /
      countTokens tok (text.drop start)) text.length
  match shrinkLoop tok text start limit overhead sfuel e0 with
  | none => none
  | some e1 =>
    let tokens := countTokens tok (textSlice text start e1)
    let e2 := adjustChunkEnd tok text start e1 (tokens + overhead) limit
    some (Except.ok (textSlice text start e2, e2))

/-- `Headers`: a `HashMap<String, Vec<String>>` keyed `"h1"`..`"h6"`,
modelled as a total function from the numeric level; an absent key is the
empty list (the source only ever stores non-empty vectors). -/
abbrev Headers := Nat → List (List Char)

/-- `Headers::new`. -/
def Headers.empty : Headers := fun _ => []

/-- `Headers::insert`: push one value at a level. -/
def Headers.insert (h : Headers) (level : Nat) (value : List Char) : Headers :=
  fun k => if k = level then h k ++ [value] else h k

/-- `Headers::clear_lower_headers`: remove levels `level+1 ..= 6`. -/
def Headers.clearLowerHeaders (h : Headers) (level : Nat) : Headers :=
  fun k => if level < k ∧ k ≤ 6 then [] else h k

/-- Iterated `Headers::insert` over a list of values (the inner `for` of
`update_current_headers`). -/
def insertAll (h : Headers) (level : Nat) (values : List (List Char)) : Headers :=
  values.foldl (fun acc v => acc.insert level v) h

/-- Whitespace characters matched by `\s` inside one line (the line
terminator itself never occurs inside a split line). -/
def isWs (c : Char) : Bool :=
  c == ' ' || c == '\t' || c == '\r' || c == '\x0b' || c == '\x0c'

/-- Rust `str::trim` on a character list (ASCII whitespace suffices here). -/
def trimChars (l : List Char) : List Char :=
  (((l.dropWhile isWs).reverse).dropWhile isWs).reverse

/-- Split a text into its lines (separator `'\n'`), as the multiline
anchors `(?m)^...$` do. -/
def splitLines : List Char → List (List Char)
  | [] => [[]]
  | c :: rest =>
    if c = '\n' then [] :: splitLines rest
    else
      match splitLines rest with
      | [] => [[c]]
      | line :: more => (c :: line) :: more

/-- One line against `^(#{1,6})\s+(.*)$` followed by `trim` of capture 2.
The regex is modelled line-by-line: `\s` here never matches the line
terminator. -/
def parseHeading (line : List Char) : Option (Nat × List Char) :=
  let hashes := line.takeWhile (fun c => c == '#')
  let rest := line.dropWhile (fun c => c == '#')
  if 1 ≤ hashes.length ∧ hashes.length ≤ 6 then
    match rest with
    | [] => none
    | c :: _ => if isWs c then some (hashes.length, trimChars rest) else none
  else none

/-- `TextSplitter::extract_headers`. -/
def extractHeaders (text : List Char) : Headers :=
  (splitLines text).foldl
    (fun h line =>
      match parseHeading line with
      | some (level, content) => h.insert level content
      | none => h)
    Headers.empty

/-- The body of the `for level in 1..=6` loop of `update_current_headers`:
if the extracted map has entries at `level`, push them all and clear the
deeper levels (a key is present exactly when its list is non-empty). -/
def updateStep (extracted : Headers) (cur : Headers) (level : Nat) : Headers :=
  if extracted level ≠ [] then
    (insertAll cur level (extracted level)).clearLowerHeaders level
  else cur

/-- `TextSplitter::update_current_headers`. -/
def updateCurrentHeaders (current extracted : Headers) : Headers :=
  [1, 2, 3, 4, 5, 6].foldl (updateStep extracted) current

/-- The image regex `!\[([^\]]*)\]\(([^)]+)\)` attempted at the head of the
list: returns `(alt, target, rest-after-match)`. -/
def matchImageAt : List Char → Option (List Char × List Char × List Char)
  | '!' :: '[' :: rest =>
    let alt := rest.takeWhile (fun x => x != ']')
    match rest.dropWhile (fun x => x != ']') with
    | ']' :: '(' :: rest2 =>
      let url := rest2.takeWhile (fun x => x != ')')
      match url, rest2.dropWhile (fun x => x != ')') with
      | _ :: _, ')' :: rest3 => some (alt, url, rest3)
      | _, _ => none
    | _ => none
  | _ => none

/-- The link regex `\[([^\]]+)\]\(([^)]+)\)` attempted at the head of the
list: returns `(text, target, rest-after-match)`. -/
def matchUrlAt : List Char → Option (List Char × List Char × List Char)
  | '[' :: rest =>
    let txt := rest.takeWhile (fun x => x != ']')
    match txt, rest.dropWhile (fun x => x != ']') with
    | _ :: _, ']' :: '(' :: rest2 =>
      let url := rest2.takeWhile (fun x => x != ')')
      match url, rest2.dropWhile (fun x => x != ')') with
      | _ :: _, ')' :: rest3 => some (txt, url, rest3)
      | _, _ => none
    | _, _ => none
  | _ => none

/-- The replacement string `format!("![{}]({{$img{}}})", alt, image_index)`. -/
def imageReplacement (alt : List Char) (idx : Nat) : List Char :=
  "![".toList ++ alt ++ "](\x7b$img".toList ++ (toString idx).toList ++ "\x7d)".toList

/-- The replacement string `format!("[{}]({{$url{}}})", text, url_index)`. -/
def urlReplacement (txt : List Char) (idx : Nat) : List Char :=
  "[".toList ++ txt ++ "](\x7b$url".toList ++ (toString idx).toList ++ "\x7d)".toList

/-- `Regex::replace_all` for the image pattern with the recording closure:
leftmost, non-overlapping matches.  Each match consumes at least six
characters, so fuel equal to the length of the text always suffices. -/
def imagePass (imageIndex : Nat) : Nat → List Char → List Char × List (List Char)
  | _, [] => ([], [])
  | 0, l => (l, [])
  | fuel + 1, c :: rest =>
    match matchImageAt (c :: rest) with
    | some (alt, url, rest2) =>
      let t := imagePass imageIndex fuel rest2
      (imageReplacement alt imageIndex ++ t.1, url :: t.2)
    | none =>
      let t := imagePass imageIndex fuel rest
      (c :: t.1, t.2)

/-- `Regex::replace_all` for the link pattern with the recording closure. -/
def urlPass (urlIndex : Nat) : Nat → List Char → List Char × List (List Char)
  | _, [] => ([], [])
  | 0, l => (l, [])
  | fuel + 1, c :: rest =>
    match matchUrlAt (c :: rest) with
    | some (txt, url, rest2) =>
      let t := urlPass urlIndex fuel rest2
      (urlReplacement txt urlIndex ++ t.1, url :: t.2)
    | none =>
      let t := urlPass urlIndex fuel rest
      (c :: t.1, t.2)

/-- `TextSplitter::extract_urls_and_images`.  As in the source, the two
index variables are bound to `0` and never incremented. -/
def extractUrlsAndImages (text : List Char) :
    List Char × List (List Char) × List (List Char) :=
  let urlIndex := 0
  let imageIndex := 0
  let p1 := imagePass imageIndex text.length text
  let p2 := urlPass urlIndex p1.1.length p1.1
  (p2.1, p2.2, p1.2)

/-- `Metadata` of one chunk. -/
structure Metadata where
  tokens : Nat
  headers : Headers
  urls : List (List Char)
  images : List (List Char)

/-- `Doc`: one output chunk. -/
structure Doc where
  text : List Char
  metadata : Metadata

/-- The chunking `while` loop of `split` (lines 75-98), with fuel, each
emitted `Doc` paired with the consumed span of original offsets. -/
def splitGo (tok : Tok) (text : List Char) (limit sfuel : Nat) :
    Nat → Nat → Headers → Option (Except (List Char) (List ((Nat × Nat) × Doc)))
  | 0, pos, _ =>
    if pos < text.length then none else some (Except.ok [])
  | f + 1, pos, hdrs =>
    if pos < text.length then
      match getChunk tok text pos limit sfuel with
      | none => none
      | some (Except.error e) => some (Except.error e)
      | some (Except.ok (chunkText, chunkEnd)) =>
        let tokens := countTokens tok chunkText
        let headersInChunk := extractHeaders chunkText
        let hdrs2 := updateCurrentHeaders hdrs headersInChunk
        let ext := extractUrlsAndImages chunkText
        match splitGo tok text limit sfuel f chunkEnd hdrs2 with
        | none => none
        | some (Except.error e) => some (Except.error e)
        | some (Except.ok rest) =>
          some (Except.ok
            (((pos, chunkEnd), ⟨ext.1, ⟨tokens, hdrs2, ext.2.1, ext.2.2⟩⟩) :: rest))
    else some (Except.ok [])

/-- `TextSplitter::split`, instrumented with spans. -/
def split (tok : Tok) (text : List Char) (limit sfuel fuel : Nat) :
    Option (Except (List Char) (List ((Nat × Nat) × Doc))) :=
  splitGo tok text limit sfuel fuel 0 Headers.empty

/-- The plain output of `split`: the emitted `Doc` list. -/
def splitDocs (tok : Tok) (text : List Char) (limit sfuel fuel : Nat) :
    Option (Except (List Char) (List Doc)) :=
  (split tok text limit sfuel fuel).map (Except.map (List.map Prod.snd))

/-- Contiguity of consumed spans from position `p`: each span starts where
the previous one ended, is non-empty, and the last one ends at the end of
the text. -/
def spanChain (text : List Char) : Nat → List ((Nat × Nat) × Doc) → Prop
  | p, [] => p = text.length
  | p, ((s, e), _) :: rest => s = p ∧ p < e ∧ spanChain text e rest

/-- Concatenation of the original-offset spans of a chunk list. -/
def spansText (text : List Char) (L : List ((Nat × Nat) × Doc)) : List Char :=
  L.foldr (fun sd acc => textSlice text sd.1.1 sd.1.2 ++ acc) []

/-- A deterministic stub tokenizer (the raw character count), as suggested
by the specification for tokenizer-independent testing. -/
def lenTok : Tok := List.length

/-- A non-additive tokenizer: character count capped at 60. -/
def capTok : Tok := fun s => min s.length 60

/-- A 51-character input: 49 letters, a newline, one more letter. -/
def c2Text : List Char := List.replicate 49 'a' ++ ['\n', 'b']

/-- A document with two markdown links with distinct targets. -/
def c4Text : List Char := "See [a](https://a.com) and [b](https://b.com)".toList

/-- The single-chunk scenario input of the specification (one link and one
image). -/
def c5Text : List Char :=
  "See [OpenAI](https://openai.com) and ![logo](https://x.com/logo.png).".toList

/-- A chunk in which a deeper heading textually precedes a shallower one. -/
def c6Chunk : List Char := "### A\n## B".toList

/-- A running heading context carrying an older h3 entry. -/
def c6Cur : Headers := fun k => if k = 3 then [['o', 'l', 'd']] else []

/-- A document consisting of a single markdown link. -/
def c10Text : List Char := "[a](bb)".toList

/-- The single chunk that the stub-tokenizer split of the two-character
text "ab" emits under a large limit. -/
def c3Doc : Doc := ⟨"ab".toList, ⟨61, Headers.empty, [], []⟩⟩

theorem findCharIdx_lt_length {c : Char} :
    ∀ {l : List Char} {i : Nat}, findCharIdx c l = some i → i < l.length := by
  intro l
  induction l with
  | nil => intro i h; simp [findCharIdx] at h
  | cons x xs ih =>
    intro i h
    by_cases hx : x = c
    · simp [findCharIdx, hx] at h
      simp only [List.length_cons]
      omega
    · simp [findCharIdx, hx] at h
      obtain ⟨j, hj, rfl⟩ := h
      have := ih hj
      simp only [List.length_cons]
      omega

theorem rfindCharIdx_lt_length {c : Char} :
    ∀ {l : List Char} {i : Nat}, rfindCharIdx c l = some i → i < l.length := by
  intro l
  induction l with
  | nil => intro i h; simp [rfindCharIdx] at h
  | cons x xs ih =>
    intro i h
    simp only [rfindCharIdx] at h
    rcases hr : rfindCharIdx c xs with _ | j
    · rw [hr] at h
      by_cases hx : x = c <;> simp [hx] at h
      simp only [List.length_cons]
      omega
    · rw [hr] at h
      have := ih hr
      simp only [Option.some.injEq] at h
      simp only [List.length_cons]
      omega

theorem textSlice_eq_drop_take (text : List Char) (s e : Nat) :
    textSlice text s e = (text.drop s).take (e - s) := by
  unfold textSlice
  rw [List.drop_take]

theorem drop_eq_textSlice_append (text : List Char) {s e : Nat} (h : s ≤ e) :
    text.drop s = textSlice text s e ++ text.drop e := by
  rw [textSlice_eq_drop_take]
  have h2 := List.drop_take_append_drop text s (e - s)
  rw [Nat.add_sub_cancel' h] at h2
  exact h2.symm

theorem findNewChunkEnd_eq (start e : Nat) :
    findNewChunkEnd start e =
      if e - (e - start) / 10 ≤ start then start + 1 else e - (e - start) / 10 := rfl

theorem findNewChunkEnd_bounds {start e : Nat} (h : start < e) :
    start < findNewChunkEnd start e ∧
    (findNewChunkEnd start e ≤ e ∨ findNewChunkEnd start e = start + 1) := by
  have hd : (e - start) / 10 ≤ e - start := Nat.div_le_self _ _
  rw [findNewChunkEnd_eq]
  split <;> omega

theorem shrinkLoop_exit {tok : Tok} {text : List Char} {start limit overhead : Nat} :
    ∀ {fuel e0 e : Nat}, shrinkLoop tok text start limit overhead fuel e0 = some e →
      start < e → countTokens tok (textSlice text start e) + overhead ≤ limit := by
  intro fuel
  induction fuel with
  | zero =>
    intro e0 e h hlt
    unfold shrinkLoop at h
    split at h
    · simp at h
    · next hc =>
      injection h with h'
      subst h'
      exact Nat.le_of_not_lt fun hgt => hc ⟨hgt, hlt⟩
  | succ f ih =>
    intro e0 e h hlt
    unfold shrinkLoop at h
    split at h
    · exact ih h hlt
    · next hc =>
      injection h with h'
      subst h'
      exact Nat.le_of_not_lt fun hgt => hc ⟨hgt, hlt⟩

theorem shrinkLoop_bounds {tok : Tok} {text : List Char} {start limit overhead : Nat}
    (hsl : start < text.length) :
    ∀ {fuel e0 e : Nat}, start ≤ e0 → e0 ≤ text.length →
      shrinkLoop tok text start limit overhead fuel e0 = some e →
      start ≤ e ∧ e ≤ text.length := by
  intro fuel
  induction fuel with
  | zero =>
    intro e0 e h1 h2 h
    unfold shrinkLoop at h
    split at h
    · simp at h
    · injection h with h'
      subst h'
      exact ⟨h1, h2⟩
  | succ f ih =>
    intro e0 e h1 h2 h
    unfold shrinkLoop at h
    split at h
    · next hc =>
      have hb := findNewChunkEnd_bounds hc.2
      exact ih (by omega) (by omega) h
    · injection h with h'
      subst h'
      exact ⟨h1, h2⟩

theorem adjustTryNext_some {tok : Tok} {text : List Char} {start e limit next : Nat}
    (h : adjustTryNext tok text start e limit = some next) :
    countTokens tok (textSlice text start next) ≤ limit ∧
    limit * 8 / 10 ≤ countTokens tok (textSlice text start next) ∧
    e < next ∧ next ≤ text.length := by
  unfold adjustTryNext at h
  rcases hf : findCharIdx '\n' (text.drop e) with _ | p
  · rw [hf] at h; simp at h
  · rw [hf] at h
    simp only [Option.map_some'] at h
    split at h
    · next hg =>
      injection h with h'
      subst h'
      have hp := findCharIdx_lt_length hf
      rw [List.length_drop] at hp
      exact ⟨hg.1, hg.2, by omega, by omega⟩
    · simp at h

theorem adjustTryPrev_spec (tok : Tok) (text : List Char) (start e limit : Nat) :
    adjustTryPrev tok text start e limit = e ∨
    (start < adjustTryPrev tok text start e limit ∧
     adjustTryPrev tok text start e limit ≤ e ∧
     countTokens tok (textSlice text start (adjustTryPrev tok text start e limit)) ≤ limit ∧
     limit * 8 / 10 ≤ countTokens tok (textSlice text start (adjustTryPrev tok text start e limit))) := by
  unfold adjustTryPrev
  rcases hf : rfindCharIdx '\n' (text.take e) with _ | j
  · exact Or.inl rfl
  · simp only [Option.map_some']
    have hj := rfindCharIdx_lt_length hf
    rw [List.length_take] at hj
    split
    · next hlt =>
      split
      · next hg => exact Or.inr ⟨hlt, by omega, hg.1, hg.2⟩
      · exact Or.inl rfl
    · exact Or.inl rfl

theorem adjustChunkEnd_cases (tok : Tok) (text : List Char) (start e ct limit : Nat) :
    adjustChunkEnd tok text start e ct limit = e ∨
    countTokens tok (textSlice text start (adjustChunkEnd tok text start e ct limit)) ≤ limit := by
  unfold adjustChunkEnd
  rcases hn : adjustTryNext tok text start e limit with _ | next
  · show adjustTryPrev tok text start e limit = e ∨
      countTokens tok (textSlice text start (adjustTryPrev tok text start e limit)) ≤ limit
    rcases adjustTryPrev_spec tok text start e limit with hp | hp
    · exact Or.inl hp
    · exact Or.inr hp.2.2.1
  · show next = e ∨ countTokens tok (textSlice text start next) ≤ limit
    exact Or.inr (adjustTryNext_some hn).1

theorem adjustChunkEnd_bounds (tok : Tok) (text : List Char) {start e : Nat}
    (ct limit : Nat) (h1 : start ≤ e) (h2 : e ≤ text.length) :
    start ≤ adjustChunkEnd tok text start e ct limit ∧
    adjustChunkEnd tok text start e ct limit ≤ text.length := by
  unfold adjustChunkEnd
  rcases hn : adjustTryNext tok text start e limit with _ | next
  · show start ≤ adjustTryPrev tok text start e limit ∧
      adjustTryPrev tok text start e limit ≤ text.length
    rcases adjustTryPrev_spec tok text start e limit with hp | hp
    · rw [hp]; exact ⟨h1, h2⟩
    · exact ⟨by omega, by omega⟩
  · show start ≤ next ∧ next ≤ text.length
    have := adjustTryNext_some hn
    exact ⟨by omega, by omega⟩

theorem getChunk_shape {tok : Tok} {text : List Char} {start limit sfuel : Nat}
    {r : Except (List Char) (List Char × Nat)}
    (h : getChunk tok text start limit sfuel = some r) :
    ∃ ct e, r = Except.ok (ct, e) := by
  simp only [getChunk] at h
  split at h
  · simp at h
  · injection h with h'
    exact ⟨_, _, h'.symm⟩

theorem getChunk_e0_le {tok : Tok} {text : List Char} (start limit : Nat)
    (hsl : start < text.length) :
    start ≤ min (start + (text.length - start) * limit /
      countTokens tok (text.drop start)) text.length :=
  le_min (Nat.le_add_right _ _) (le_of_lt hsl)

theorem getChunk_bounds {tok : Tok} {text : List Char} {start limit sfuel : Nat}
    {ct : List Char} {e : Nat} (hsl : start < text.length)
    (h : getChunk tok text start limit sfuel = some (Except.ok (ct, e))) :
    start ≤ e ∧ e ≤ text.length ∧ ct = textSlice text start e := by
  simp only [getChunk] at h
  split at h
  · simp at h
  · next e1 heq =>
    simp only [Option.some.injEq, Except.ok.injEq, Prod.mk.injEq] at h
    obtain ⟨hct, he⟩ := h
    have hb := shrinkLoop_bounds hsl (getChunk_e0_le start limit hsl)
      (min_le_right _ _) heq
    have ha := adjustChunkEnd_bounds tok text
      (countTokens tok (textSlice text start e1) + overheadOf tok) limit hb.1 hb.2
    subst he
    exact ⟨ha.1, ha.2, hct.symm⟩

theorem getChunk_budget {tok : Tok} {text : List Char} {start limit sfuel : Nat}
    {ct : List Char} {e : Nat} (hsl : start < text.length)
    (h : getChunk tok text start limit sfuel = some (Except.ok (ct, e)))
    (hne : e ≠ start) : countTokens tok ct ≤ limit := by
  simp only [getChunk] at h
  split at h
  · simp at h
  · next e1 heq =>
    simp only [Option.some.injEq, Except.ok.injEq, Prod.mk.injEq] at h
    obtain ⟨hct, he⟩ := h
    have hb := shrinkLoop_bounds hsl (getChunk_e0_le start limit hsl)
      (min_le_right _ _) heq
    rcases adjustChunkEnd_cases tok text start e1
        (countTokens tok (textSlice text start e1) + overheadOf tok) limit with hc | hc
    · have he1e : e1 = e := by rw [← hc, he]
      have hlt : start < e1 := by omega
      have hx := shrinkLoop_exit heq hlt
      rw [← hct, hc]
      omega
    · rw [← hct]
      exact hc

theorem splitGo_stuck (tok : Tok) (text : List Char) (limit sfuel : Nat)
    {pos : Nat} {ct : List Char} (hplt : pos < text.length)
    (hg : getChunk tok text pos limit sfuel = some (Except.ok (ct, pos))) :
    ∀ fuel (hdrs : Headers), splitGo tok text limit sfuel fuel pos hdrs = none := by
  intro fuel
  induction fuel with
  | zero => intro hdrs; simp [splitGo, hplt]
  | succ f ih =>
    intro hdrs
    simp only [splitGo, if_pos hplt, hg, ih]

theorem splitGo_ok (tok : Tok) (text : List Char) (limit sfuel : Nat) :
    ∀ (fuel pos : Nat) (hdrs : Headers) r,
      splitGo tok text limit sfuel fuel pos hdrs = some r →
      ∃ L, r = Except.ok L := by
  intro fuel
  induction fuel with
  | zero =>
    intro pos hdrs r h
    unfold splitGo at h
    split at h
    · simp at h
    · injection h with h'
      exact ⟨[], h'.symm⟩
  | succ f ih =>
    intro pos hdrs r h
    unfold splitGo at h
    split at h
    · rcases hg : getChunk tok text pos limit sfuel with _ | r1
      · rw [hg] at h; simp at h
      · obtain ⟨ct, ce, rfl⟩ := getChunk_shape hg
        rw [hg] at h
        simp only [] at h
        rcases hr : splitGo tok text limit sfuel f ce
            (updateCurrentHeaders hdrs (extractHeaders ct)) with _ | r2
        · rw [hr] at h; simp at h
        · obtain ⟨rest, rfl⟩ := ih ce _ r2 hr
          rw [hr] at h
          simp only [Option.some.injEq] at h
          exact ⟨_, h.symm⟩
    · injection h with h'
      exact ⟨[], h'.symm⟩

theorem splitGo_master (tok : Tok) (text : List Char) (limit sfuel : Nat) :
    ∀ (fuel pos : Nat) (hdrs : Headers) L,
      splitGo tok text limit sfuel fuel pos hdrs = some (Except.ok L) →
      pos ≤ text.length →
      spanChain text pos L ∧ spansText text L = text.drop pos ∧
      ∀ sd ∈ L, sd.2.metadata.tokens = countTokens tok (textSlice text sd.1.1 sd.1.2) ∧
        sd.2.metadata.tokens ≤ limit := by
  intro fuel
  induction fuel with
  | zero =>
    intro pos hdrs L h hle
    unfold splitGo at h
    split at h
    · simp at h
    · next hnlt =>
      injection h with h'
      injection h' with h''
      subst h''
      have hpos : pos = text.length := by omega
      refine ⟨hpos, ?_, by simp⟩
      simp [spansText, hpos, List.drop_eq_nil_of_le (le_refl text.length)]
  | succ f ih =>
    intro pos hdrs L h hle
    unfold splitGo at h
    split at h
    · next hplt =>
      rcases hg : getChunk tok text pos limit sfuel with _ | r1
      · rw [hg] at h; simp at h
      · obtain ⟨ct, ce, rfl⟩ := getChunk_shape hg
        rw [hg] at h
        simp only [] at h
        rcases hr : splitGo tok text limit sfuel f ce
            (updateCurrentHeaders hdrs (extractHeaders ct)) with _ | r2
        · rw [hr] at h; simp at h
        · obtain ⟨rest, rfl⟩ := splitGo_ok tok text limit sfuel f ce _ r2 hr
          rw [hr] at h
          simp only [Option.some.injEq, Except.ok.injEq] at h
          subst h
          have hb := getChunk_bounds hplt hg
          have hne : ce ≠ pos := by
            intro hceq
            rw [hceq] at hg hr
            rw [splitGo_stuck tok text limit sfuel hplt hg f
              (updateCurrentHeaders hdrs (extractHeaders ct))] at hr
            exact Option.noConfusion hr
          have hlt : pos < ce := lt_of_le_of_ne hb.1 (Ne.symm hne)
          obtain ⟨hchain, hjoin, hall⟩ := ih ce _ rest hr hb.2.1
          refine ⟨⟨rfl, hlt, hchain⟩, ?_, ?_⟩
          · show textSlice text pos ce ++ spansText text rest = text.drop pos
            rw [hjoin, ← drop_eq_textSlice_append text hb.1]
          · intro sd hsd
            rcases List.mem_cons.mp hsd with rfl | hmem
            · refine ⟨?_, getChunk_budget hplt hg hne⟩
              show countTokens tok ct = countTokens tok (textSlice text pos ce)
              rw [← hb.2.2]
            · exact hall sd hmem
    · next hnlt =>
      injection h with h'
      injection h' with h''
      subst h''
      have hpos : pos = text.length := by omega
      refine ⟨hpos, ?_, by simp⟩
      simp [spansText, hpos, List.drop_eq_nil_of_le (le_refl text.length)]

theorem insertAll_apply :
    ∀ (vs : List (List Char)) (h : Headers) (level k : Nat),
      insertAll h level vs k = if k = level then h k ++ vs else h k
  | [], h, level, k => by
    show h k = if k = level then h k ++ [] else h k
    split <;> simp
  | v :: vs, h, level, k => by
    show insertAll (h.insert level v) level vs k = _
    rw [insertAll_apply vs]
    by_cases hk : k = level <;> simp [Headers.insert, hk]

theorem updateStep_at_lt {extracted cur : Headers} {L l : Nat} (h : l < L) :
    updateStep extracted cur L l = cur l := by
  unfold updateStep
  split
  · show (insertAll cur L (extracted L)).clearLowerHeaders L l = cur l
    unfold Headers.clearLowerHeaders
    rw [if_neg (by omega : ¬(L < l ∧ l ≤ 6)), insertAll_apply,
      if_neg (by omega : ¬(l = L))]
  · rfl

theorem updateStep_at_gt {extracted cur : Headers} {L l : Nat} (hL : L < l) (h6 : l ≤ 6)
    (hne : extracted L ≠ []) : updateStep extracted cur L l = [] := by
  unfold updateStep
  rw [if_pos hne]
  show (insertAll cur L (extracted L)).clearLowerHeaders L l = []
  unfold Headers.clearLowerHeaders
  rw [if_pos ⟨hL, h6⟩]

theorem updateStep_skip {extracted cur : Headers} {L : Nat} (he : extracted L = []) :
    updateStep extracted cur L = cur := by
  unfold updateStep
  rw [if_neg (by simp [he])]

theorem updateStep_at_self_pos {extracted cur : Headers} {l : Nat}
    (hne : extracted l ≠ []) :
    updateStep extracted cur l l = cur l ++ extracted l := by
  unfold updateStep
  rw [if_pos hne]
  show (insertAll cur l (extracted l)).clearLowerHeaders l l = cur l ++ extracted l
  unfold Headers.clearLowerHeaders
  rw [if_neg (by omega : ¬(l < l ∧ l ≤ 6)), insertAll_apply, if_pos rfl]

theorem foldl_updateStep_at_lt (extracted : Headers) (l : Nat) :
    ∀ (ls : List Nat), (∀ L ∈ ls, l < L) → ∀ cur : Headers,
      (ls.foldl (updateStep extracted) cur) l = cur l
  | [], _, cur => rfl
  | L :: ls, h, cur => by
    rw [List.foldl_cons,
      foldl_updateStep_at_lt extracted l ls (fun x hx => h x (List.mem_cons_of_mem L hx)),
      updateStep_at_lt (h L (List.mem_cons_self _ _))]

theorem foldl_updateStep_lower (extracted : Headers) (l : Nat) (h6 : l ≤ 6) :
    ∀ (ls : List Nat), (∀ L ∈ ls, L < l) → ∀ cur : Headers,
      ((∀ L ∈ ls, extracted L = []) → (ls.foldl (updateStep extracted) cur) l = cur l) ∧
      ((∃ L ∈ ls, extracted L ≠ []) → (ls.foldl (updateStep extracted) cur) l = [])
  | [], _, cur => ⟨fun _ => rfl, by simp⟩
  | L :: ls, h, cur => by
    have htail : ∀ x ∈ ls, x < l := fun x hx => h x (List.mem_cons_of_mem L hx)
    constructor
    · intro hall
      rw [List.foldl_cons, updateStep_skip (hall L (List.mem_cons_self _ _))]
      exact (foldl_updateStep_lower extracted l h6 ls htail cur).1
        (fun x hx => hall x (List.mem_cons_of_mem L hx))
    · intro hex
      rw [List.foldl_cons]
      by_cases hrest : ∃ x ∈ ls, extracted x ≠ []
      · exact (foldl_updateStep_lower extracted l h6 ls htail _).2 hrest
      · obtain ⟨L0, hL0, hne⟩ := hex
        have hLeq : L0 = L := by
          rcases List.mem_cons.mp hL0 with rfl | hmem
          · rfl
          · exact absurd ⟨L0, hmem, hne⟩ hrest
        subst hLeq
        have hallrest : ∀ x ∈ ls, extracted x = [] := by
          intro x hx
          by_contra hxne
          exact hrest ⟨x, hx, hxne⟩
        rw [(foldl_updateStep_lower extracted l h6 ls htail _).1 hallrest,
          updateStep_at_gt (h L0 (List.mem_cons_self _ _)) h6 hne]

theorem range_one_six : [1, 2, 3, 4, 5, 6] = List.range' 1 6 := rfl

theorem updateCurrentHeaders_split (current extracted : Headers) {l : Nat}
    (h1 : 1 ≤ l) (h6 : l ≤ 6) :
    updateCurrentHeaders current extracted =
      (List.range' (l + 1) (6 - l)).foldl (updateStep extracted)
        (updateStep extracted
          ((List.range' 1 (l - 1)).foldl (updateStep extracted) current) l) := by
  unfold updateCurrentHeaders
  have e1 : 1 + 1 * (l - 1) = l := by omega
  have e2 : (7 - l) + (l - 1) = 6 := by omega
  have e3 : 7 - l = (6 - l) + 1 := by omega
  have h2 := List.range'_append 1 (l - 1) (7 - l) 1
  rw [e1, e2] at h2
  rw [e3, List.range'_succ] at h2
  rw [range_one_six, ← h2, List.foldl_append, List.foldl_cons]

/-- C6 (amended): the update of the running heading context processes the
levels 1..6 in ascending order.  For a level l carrying new headings, if no
shallower level got new headings this chunk, the new headings accumulate
onto the running context; if some shallower level did, the entry list at l
is exactly the new headings of this chunk (older deeper context cleared,
but the chunk's own deeper headings survive regardless of their textual
position); a level with no new headings below some inserted shallower
level is cleared. -/
theorem c6_heading_update (current extracted : Headers) (l : Nat)
    (h1 : 1 ≤ l) (h6 : l ≤ 6) :
    ((extracted l ≠ [] ∧ ∀ L, 1 ≤ L → L < l → extracted L = []) →
        updateCurrentHeaders current extracted l = current l ++ extracted l) ∧
    ((extracted l ≠ [] ∧ ∃ L, 1 ≤ L ∧ L < l ∧ extracted L ≠ []) →
        updateCurrentHeaders current extracted l = extracted l) ∧
    ((extracted l = [] ∧ ∃ L, 1 ≤ L ∧ L < l ∧ extracted L ≠ []) →
        updateCurrentHeaders current extracted l = []) := by
  rw [updateCurrentHeaders_split current extracted h1 h6]
  have hpost : ∀ L ∈ List.range' (l + 1) (6 - l), l < L := by
    intro L hL
    rw [List.mem_range'_1] at hL
    omega
  have hpre : ∀ L ∈ List.range' 1 (l - 1), L < l := by
    intro L hL
    rw [List.mem_range'_1] at hL
    omega
  refine ⟨?_, ?_, ?_⟩
  · rintro ⟨hne, hlow⟩
    have hplow : ∀ L ∈ List.range' 1 (l - 1), extracted L = [] := by
      intro L hL
      rw [List.mem_range'_1] at hL
      exact hlow L hL.1 (by omega)
    rw [foldl_updateStep_at_lt extracted l _ hpost, updateStep_at_self_pos hne,
      (foldl_updateStep_lower extracted l h6 _ hpre current).1 hplow]
  · rintro ⟨hne, L0, hL1, hLl, hL0⟩
    have hmem : L0 ∈ List.range' 1 (l - 1) := by
      rw [List.mem_range'_1]
      omega
    rw [foldl_updateStep_at_lt extracted l _ hpost, updateStep_at_self_pos hne,
      (foldl_updateStep_lower extracted l h6 _ hpre current).2 ⟨L0, hmem, hL0⟩]
    simp
  · rintro ⟨hemp, L0, hL1, hLl, hL0⟩
    have hmem : L0 ∈ List.range' 1 (l - 1) := by
      rw [List.mem_range'_1]
      omega
    rw [foldl_updateStep_at_lt extracted l _ hpost, updateStep_skip hemp,
      (foldl_updateStep_lower extracted l h6 _ hpre current).2 ⟨L0, hmem, hL0⟩]

/-- Witness for C6: the amended statement applied to the concrete chunk
with an h3 before an h2, over a context carrying an older h3 entry. -/
theorem c6_heading_update_witness :
    (((extractHeaders c6Chunk) 3 ≠ [] ∧
        ∀ L, 1 ≤ L → L < 3 → (extractHeaders c6Chunk) L = []) →
      updateCurrentHeaders c6Cur (extractHeaders c6Chunk) 3 =
        c6Cur 3 ++ (extractHeaders c6Chunk) 3) ∧
    (((extractHeaders c6Chunk) 3 ≠ [] ∧
        ∃ L, 1 ≤ L ∧ L < 3 ∧ (extractHeaders c6Chunk) L ≠ []) →
      updateCurrentHeaders c6Cur (extractHeaders c6Chunk) 3 =
        (extractHeaders c6Chunk) 3) ∧
    (((extractHeaders c6Chunk) 3 = [] ∧
        ∃ L, 1 ≤ L ∧ L < 3 ∧ (extractHeaders c6Chunk) L ≠ []) →
      updateCurrentHeaders c6Cur (extractHeaders c6Chunk) 3 = []) :=
  c6_heading_update c6Cur (extractHeaders c6Chunk) 3 (by norm_num) (by norm_num)

/-- Counterexample for C6 as stated: in the chunk with h3 "A" textually
before h2 "B", the later shallower heading does not remove the earlier
deeper one, because the update iterates by level (2 before 3), so the h3
entry is re-inserted after the clearing triggered by h2. -/
theorem c6_deeper_heading_survives :
    updateCurrentHeaders Headers.empty (extractHeaders c6Chunk) 3 = [['A']] ∧
    updateCurrentHeaders Headers.empty (extractHeaders c6Chunk) 2 = [['B']] ∧
    ([['A']] : List (List Char)) ≠ [] := by
  refine ⟨by decide, by decide, by decide⟩

/-- C3: on every input on which split returns, the consumed original-offset
spans are contiguous and non-overlapping, the first chunk starts at offset
0, each chunk starts where the previous one ended, the last chunk ends at
the length of the text, and concatenating the spans reconstructs the full
input. -/
theorem c3_span_coverage (tok : Tok) (text : List Char) (limit sfuel fuel : Nat)
    (L : List ((Nat × Nat) × Doc))
    (h : split tok text limit sfuel fuel = some (Except.ok L)) :
    spanChain text 0 L ∧ spansText text L = text := by
  obtain ⟨hchain, hjoin, _⟩ :=
    splitGo_master tok text limit sfuel fuel 0 Headers.empty L h (Nat.zero_le _)
  exact ⟨hchain, by simpa using hjoin⟩

/-- Witness for C3 at a concrete successful split. -/
theorem c3_span_coverage_witness :
    spanChain "ab".toList 0 [((0, 2), c3Doc)] ∧
    spansText "ab".toList [((0, 2), c3Doc)] = "ab".toList :=
  c3_span_coverage lenTok "ab".toList 1000 5 5 [((0, 2), c3Doc)] rfl

/-- C2 (amended): every chunk of a successful split satisfies
tokens ≤ limit, and the shrink loop of get_chunk establishes the full
budget tokens + overhead ≤ limit whenever it exits above its start; only
the newline snap of adjust_chunk_end, whose guard compares the token count
without the overhead, can yield an emitted chunk with
tokens + overhead > limit. -/
theorem c2_token_budget_amended :
    (∀ (tok : Tok) (text : List Char) (limit sfuel fuel : Nat)
        (L : List ((Nat × Nat) × Doc)),
        split tok text limit sfuel fuel = some (Except.ok L) →
        ∀ sd ∈ L, sd.2.metadata.tokens ≤ limit) ∧
    (∀ (tok : Tok) (text : List Char) (start limit overhead fuel e0 e : Nat),
        shrinkLoop tok text start limit overhead fuel e0 = some e → start < e →
        countTokens tok (textSlice text start e) + overhead ≤ limit) := by
  constructor
  · intro tok text limit sfuel fuel L h sd hsd
    exact ((splitGo_master tok text limit sfuel fuel 0 Headers.empty L h
      (Nat.zero_le _)).2.2 sd hsd).2
  · intro tok text start limit overhead fuel e0 e h hlt
    exact shrinkLoop_exit h hlt

/-- Witness for C2 (amended) at a concrete split and a concrete shrink
loop run. -/
theorem c2_token_budget_amended_witness :
    (∀ sd ∈ [((0, 2), c3Doc)], sd.2.metadata.tokens ≤ 1000) ∧
    countTokens lenTok (textSlice "ab".toList 0 2) + 59 ≤ 1000 :=
  ⟨c2_token_budget_amended.1 lenTok "ab".toList 1000 5 5 [((0, 2), c3Doc)] rfl,
   c2_token_budget_amended.2 lenTok "ab".toList 0 1000 59 5 2 2 rfl (by norm_num)⟩

/-- Counterexample for C2 as stated: with the stub tokenizer and limit 130,
the first emitted chunk of the 51-character input has tokens 109 and
overhead 59, so tokens + overhead = 168 > 130, although its span contains a
newline (so it is not the no-newline atomic case) and its width is not the
start+1 floor: the forward newline snap of adjust_chunk_end accepted it
because its guard ignores the overhead. -/
theorem c2_snap_violates_budget :
    split lenTok c2Text 130 40 5 =
      some (Except.ok
        [((0, 50), ⟨List.replicate 49 'a' ++ ['\n'], ⟨109, Headers.empty, [], []⟩⟩),
         ((50, 51), ⟨['b'], ⟨60, Headers.empty, [], []⟩⟩)]) ∧
    109 + overheadOf lenTok > 130 ∧
    '\n' ∈ textSlice c2Text 0 50 ∧
    (50 : Nat) ≠ 0 + 1 := by
  exact ⟨rfl, by decide, by decide, by decide⟩

/-- C8: for the empty input and any limit, split returns successfully with
zero chunks, the loop body never executing. -/
theorem c8_empty_input (tok : Tok) (limit sfuel fuel : Nat) :
    split tok [] limit sfuel fuel = some (Except.ok []) := by
  cases fuel <;> rfl

/-- C9: whenever split or get_chunk returns a value, that value is the Ok
variant; no execution path constructs the error variant. -/
theorem c9_result_always_ok :
    (∀ (tok : Tok) (text : List Char) (start limit sfuel : Nat)
        (r : Except (List Char) (List Char × Nat)),
        getChunk tok text start limit sfuel = some r → ∃ v, r = Except.ok v) ∧
    (∀ (tok : Tok) (text : List Char) (limit sfuel fuel : Nat)
        (r : Except (List Char) (List ((Nat × Nat) × Doc))),
        split tok text limit sfuel fuel = some r → ∃ L, r = Except.ok L) := by
  constructor
  · intro tok text start limit sfuel r h
    obtain ⟨ct, e, rfl⟩ := getChunk_shape h
    exact ⟨_, rfl⟩
  · intro tok text limit sfuel fuel r h
    exact splitGo_ok tok text limit sfuel fuel 0 Headers.empty r h

/-- Witness for C9 at a concrete returning split. -/
theorem c9_result_always_ok_witness :
    ∃ L, (Except.ok [] : Except (List Char) (List ((Nat × Nat) × Doc))) =
      Except.ok L :=
  c9_result_always_ok.2 lenTok [] 5 0 0 (Except.ok []) rfl

/-- C10: the recorded token count of every emitted chunk is the count of
the wrapped pre-extraction span text, and on a concrete one-link document
it differs from the count of the wrapped emitted text. -/
theorem c10_tokens_counted_before_extraction :
    (∀ (tok : Tok) (text : List Char) (limit sfuel fuel : Nat)
        (L : List ((Nat × Nat) × Doc)),
        split tok text limit sfuel fuel = some (Except.ok L) →
        ∀ sd ∈ L, sd.2.metadata.tokens = countTokens tok (textSlice text sd.1.1 sd.1.2)) ∧
    (split lenTok c10Text 1000 5 5 =
        some (Except.ok
          [((0, 7), ⟨"[a](\x7b$url0\x7d)".toList,
            ⟨66, Headers.empty, ["bb".toList], []⟩⟩)]) ∧
      countTokens lenTok ("[a](\x7b$url0\x7d)".toList) = 71 ∧ (66 : Nat) ≠ 71) := by
  constructor
  · intro tok text limit sfuel fuel L h sd hsd
    exact ((splitGo_master tok text limit sfuel fuel 0 Headers.empty L h
      (Nat.zero_le _)).2.2 sd hsd).1
  · exact ⟨rfl, by decide, by decide⟩

/-- Witness for C10 at a concrete successful split. -/
theorem c10_tokens_counted_before_extraction_witness :
    ∀ sd ∈ [((0, 2), c3Doc)],
      sd.2.metadata.tokens = countTokens lenTok (textSlice "ab".toList sd.1.1 sd.1.2) :=
  c10_tokens_counted_before_extraction.1 lenTok "ab".toList 1000 5 5
    [((0, 2), c3Doc)] rfl

/-- C4 (code bug): the placeholder indices are never incremented, so both
links of this document are rewritten to the same marker with index 0 while
urls records two distinct targets; substituting the target at index 0 for
both markers cannot reconstruct the original text. -/
theorem c4_placeholder_index_constant :
    extractUrlsAndImages c4Text =
      ("See [a](\x7b$url0\x7d) and [b](\x7b$url0\x7d)".toList,
       ["https://a.com".toList, "https://b.com".toList], []) ∧
    "https://a.com".toList ≠ "https://b.com".toList := by
  exact ⟨by decide, by decide⟩

/-- C5 (code bug): on the single-chunk link-and-image document, the link
regex pass also matches the already-rewritten image marker, so the emitted
chunk has two url entries, the second being the image placeholder string
itself, and the image marker text is rewritten to a url marker. -/
theorem c5_image_marker_corrupted :
    split lenTok c5Text 1000 5 5 =
      some (Except.ok
        [((0, 69),
          ⟨"See [OpenAI](\x7b$url0\x7d) and ![logo](\x7b$url0\x7d).".toList,
           ⟨128, Headers.empty,
            ["https://openai.com".toList, "\x7b$img0\x7d".toList],
            ["https://x.com/logo.png".toList]⟩⟩)]) ∧
    (["https://openai.com".toList, "\x7b$img0\x7d".toList] : List (List Char)) ≠
      ["https://openai.com".toList] := by
  exact ⟨rfl, by decide⟩

/-- Counterexample for C7 as stated: for the capped tokenizer the overhead
computed by get_chunk is 1, while the token count of the empty string
wrapped once minus the token count of the plain empty string is 59. -/
theorem c7_overhead_counterexample :
    overheadOf capTok = 1 ∧
    capTok (formatForTokenization []) - capTok [] = 59 := by
  exact ⟨by decide, by decide⟩

/-- C7 (amended): because count_tokens itself wraps its argument, the
overhead of get_chunk equals the token count of the twice-wrapped empty
string minus the token count of the once-wrapped empty string; for an
envelope-additive tokenizer this coincides with the value the claim
states. -/
theorem c7_overhead_amended (tok : Tok) :
    overheadOf tok =
      tok (formatForTokenization (formatForTokenization [])) -
        tok (formatForTokenization []) ∧
    ∀ c : Nat, (∀ s, tok (formatForTokenization s) = tok s + c) →
      overheadOf tok = tok (formatForTokenization []) - tok [] := by
  constructor
  · rfl
  · intro c hc
    unfold overheadOf countTokens
    rw [hc (formatForTokenization []), hc []]
    omega

/-- Witness for C7 (amended): the stub length tokenizer is
envelope-additive with constant 59. -/
theorem c7_overhead_amended_witness :
    overheadOf lenTok = lenTok (formatForTokenization []) - lenTok [] :=
  (c7_overhead_amended lenTok).2 59 (fun s => by
    show (chatPrefix ++ s ++ chatSuffix).length = s.length + 59
    have h1 : chatPrefix.length = 17 := rfl
    have h2 : chatSuffix.length = 42 := rfl
    simp only [List.length_append]
    omega)

/-- C1 (code bug): with the stub tokenizer, text "a" and limit 1, the
proportional estimate of get_chunk collapses to the start position, the
shrink loop is skipped, no newline exists to snap to, and get_chunk
returns an end equal to its start; consequently the position of split
never advances and the chunking loop never terminates (none for every
fuel). -/
theorem c1_progress_violation :
    (∀ sfuel fuel : Nat, split lenTok ['a'] 1 sfuel fuel = none) ∧
    getChunk lenTok ['a'] 0 1 0 = some (Except.ok ([], 0)) := by
  have hg : ∀ sfuel : Nat, getChunk lenTok ['a'] 0 1 sfuel = some (Except.ok ([], 0)) := by
    intro sfuel
    cases sfuel with
    | zero => rfl
    | succ n => rfl
  refine ⟨?_, hg 0⟩
  intro sfuel fuel
  suffices hsuff : ∀ (fuel : Nat) (hdrs : Headers),
      splitGo lenTok ['a'] 1 sfuel fuel 0 hdrs = none by
    exact hsuff fuel Headers.empty
  intro fuel
  induction fuel with
  | zero => intro hdrs; rfl
  | succ f ihf =>
    intro hdrs
    simp [splitGo, hg sfuel, ihf]
